import Mathlib

/-!
# Verification of `bygge`'s plan generation (`src/main.rs`)

A shallow embedding of the `create` subcommand of `bygge`: the code that turns
a resolved cargo dependency graph into a ninja build plan.  Pure helper
functions (`normalize_crate_name`, `edition`, `skip_dep`, `build_rule`) are
translated directly; the filesystem (the local registry of crate manifests) is
modelled as a lookup function `String → Option Manifest`, where `none` stands
for a missing, unreadable or unparsable manifest; the incremental text written
to the ninja file is modelled as the list of lines produced, together with an
optional error recording that the run aborted after those lines were written.
-/

namespace Bygge

/-! ## String helpers

Rust's `str::contains(pat)` is substring containment; we implement it on
character lists. -/

/-- `isPrefixList p l` : the char list `p` is a prefix of `l`. -/
def isPrefixList : List Char → List Char → Bool
  | [], _ => true
  | _ :: _, [] => false
  | a :: as, b :: bs => a == b && isPrefixList as bs

/-- `containsList p l` : the char list `p` occurs contiguously inside `l`
(Rust `str::contains`). -/
def containsList (p : List Char) : List Char → Bool
  | [] => isPrefixList p []
  | c :: cs => isPrefixList p (c :: cs) || containsList p cs

/-- Rust `hay.contains(pat)` (substring test). -/
def str_contains (hay pat : String) : Bool :=
  containsList pat.data hay.data

/-! ## The pure policy functions of `main.rs` -/

/-- `fn skip_dep(name: &str) -> bool` —
`name.contains("winapi") || name.contains("redox")`. -/
def skip_dep (name : String) : Bool :=
  str_contains name "winapi" || str_contains name "redox"

/-- `fn normalize_crate_name(crate_name: &str) -> String` —
`crate_name.replace('-', "_")`: every `-` becomes `_`. -/
def normalize_crate_name (crate_name : String) : String :=
  ⟨crate_name.data.map (fun c => if c = '-' then '_' else c)⟩

/-- `cargo_toml::Edition` (the variants relevant to the match in `edition`;
`E2021` stands for any edition newer than 2018, which the wildcard arm of the
`match` maps to `"2015"`). -/
inductive Edition
  | E2015
  | E2018
  | E2021
deriving DecidableEq, Repr

/-- `fn edition(ed: cargo_toml::Edition) -> &'static str` —
`E2018 => "2018", _ => "2015"`. -/
def edition : Edition → String
  | .E2018 => "2018"
  | _ => "2015"

/-! ## Manifests and the registry

`Manifest::from_slice` / `from_path` yield a `cargo_toml::Manifest`; `create`
uses `manifest.lib.and_then(|lib| lib.path)` and
`manifest.package.unwrap().edition`. -/

/-- The `[lib]` section of a manifest (`cargo_toml::Product`): only the
optional `path` override is consumed by `create`. -/
structure LibSection where
  path : Option String
deriving DecidableEq, Repr

/-- The `[package]` section (`cargo_toml::Package`): only the `edition` field
is consumed by `create` for dependencies. -/
structure PackageSection where
  edition : Edition
deriving DecidableEq, Repr

/-- A parsed `Cargo.toml` as far as `create` reads it. -/
structure Manifest where
  package : Option PackageSection
  lib : Option LibSection
deriving DecidableEq, Repr

/-- `const REGISTRY_PATH` from `main.rs`. -/
def REGISTRY_PATH : String :=
  "/Users/jrediger/.cargo/registry/src/github.com-1ecc6299db9ec823"

/-- The local package cache: maps the directory key `"{name}-{version}"` to
the parsed manifest found there, or `none` when the manifest file is missing,
unreadable, or unparsable (all of which `create` surfaces as an error). -/
def Registry := String → Option Manifest

/-! ## The dependency graph

`cargo_lock`'s `dependency_tree()` hands `create` a petgraph graph whose nodes
are the locked packages and whose edges go from a package to each of its
dependencies.  We model a node's outgoing edges as indices into the node
list; the `Dependency` values in `node.dependencies` carry the names of
exactly those neighbour nodes. -/

/-- A node of the dependency graph: a locked package. -/
structure Node where
  name : String
  version : String
  dependencies : List Nat
deriving DecidableEq, Repr

instance : Inhabited Node := ⟨⟨"", "", []⟩⟩

/-- The dependency graph. -/
structure Graph where
  nodes : List Node
deriving DecidableEq, Repr

/-- `&graph[nx]` — indexing a petgraph node.  (In the Rust an out-of-range
index is impossible by construction; theorems assume `Graph.WF`.) -/
def Graph.node! (g : Graph) (i : Nat) : Node :=
  g.nodes.getD i default

/-- Well-formedness guaranteed by `cargo_lock`: every edge target is a valid
node index. -/
def Graph.WF (g : Graph) : Prop :=
  ∀ node ∈ g.nodes, ∀ d ∈ node.dependencies, d < g.nodes.length

instance (g : Graph) : Decidable g.WF := by
  unfold Graph.WF; infer_instance

/-- The raw names of a node's direct dependencies (the `node.dependencies`
slice of `Dependency` values). -/
def depNamesOf (g : Graph) (node : Node) : List String :=
  node.dependencies.map (fun i => (g.node! i).name)

/-! ## BFS (`petgraph::visit::Bfs`)

`Bfs::new(&graph, root)` starts with `root` discovered and queued;
`bfs.next(&graph)` pops the front of the queue, marks and enqueues every
not-yet-discovered neighbour, and returns the popped node.  The fuel
`g.nodes.length` is enough to drain the queue: every queued node was freshly
discovered, and at most `g.nodes.length` distinct nodes exist.
(petgraph iterates a node's neighbours in reverse edge-insertion order; we
enqueue them in declared order.  Only the relative order of siblings can
differ, which no property below depends on: the visit order is characterized
here only by its membership, its head, and its freedom from duplicates.) -/

/-- Enqueue every not-yet-discovered node of `ns`, marking it discovered. -/
def pushNew : List Nat → List Nat → List Nat → List Nat × List Nat
  | disc, queue, [] => (disc, queue)
  | disc, queue, v :: vs =>
    if v ∈ disc then pushNew disc queue vs
    else pushNew (v :: disc) (queue ++ [v]) vs

/-- One fuelled run of the BFS loop: returns the nodes in visit order. -/
def bfsAux (g : Graph) : Nat → List Nat → List Nat → List Nat
  | 0, _, _ => []
  | _ + 1, [], _ => []
  | fuel + 1, u :: rest, disc =>
    let p := pushNew disc rest (g.node! u).dependencies
    u :: bfsAux g fuel p.2 p.1

/-- The visit order of `while let Some(nx) = bfs.next(&graph)`. -/
def bfsOrder (g : Graph) (root : Nat) : List Nat :=
  bfsAux g g.nodes.length [root] [root]

/-- `Reaches g root v` : `v` is reachable from `root` along dependency
edges (the nodes the BFS walks, skip-matched intermediates included). -/
inductive Reaches (g : Graph) (root : Nat) : Nat → Prop
  | refl : Reaches g root root
  | step {u v : Nat} : Reaches g root u → v ∈ (g.node! u).dependencies →
      Reaches g root v

/-! ## Rules and their rendering (`fn build_rule`) -/

/-- The arguments of one `build_rule` call (the rule synthesized for one
package).  `dep_names` carries the raw names of `node.dependencies`. -/
structure Rule where
  pkg_name : String
  target : String
  deps : List String
  implicit_deps : List String
  outdir : String
  crate_type : String
  edition : String
  emit : String
  dep_names : List String
deriving DecidableEq, Repr

/-- `fn build_rule(...)` assembles the rule; the text it writes is
`renderRule`. -/
def build_rule (pkg_name target : String) (deps implicit_deps : List String)
    (outdir crate_type edition emit : String) (dep_names : List String) :
    Rule :=
  ⟨pkg_name, target, deps, implicit_deps, outdir, crate_type, edition, emit,
    dep_names⟩

/-- The dependency names `build_rule` keeps: both of its loops run
`if skip_dep(dep.name) { continue; }`. -/
def Rule.keptDeps (r : Rule) : List String :=
  r.dep_names.filter (fun d => !skip_dep d)

/-- The archive artifact path written for a dependency name:
`build/deps/lib{normalized}.rlib`. -/
def depArtifact (d : String) : String :=
  "build/deps/lib" ++ normalize_crate_name d ++ ".rlib"

/-- The implicit-input references of a rule's header line: one archive
artifact per kept dependency (first loop of `build_rule`). -/
def Rule.implicitDepRefs (r : Rule) : List String :=
  r.keptDeps.map depArtifact

/-- The `--extern name=path` pairings of a rule (second loop of
`build_rule`). -/
def Rule.externArgs (r : Rule) : List (String × String) :=
  r.keptDeps.map (fun d => (normalize_crate_name d, depArtifact d))

/-- The hard-coded `--cfg` flags `build_rule` adds when the normalized crate
name is `libc` (feature-resolution workaround), exactly as written. -/
def LIBC_CFGS : String :=
  "--cfg \x27feature=\"default\"\x27 --cfg \x27feature=\"extra_traits\"\x27 " ++
  "--cfg \x27feature=\"std\"\x27 --cfg freebsd11 --cfg libc_priv_mod_use " ++
  "--cfg libc_union --cfg libc_const_size_of --cfg libc_align " ++
  "--cfg libc_core_cvoid --cfg libc_packedN "

/-- The text of a rule's `args = ` line before the override flags:
`  args = --crate-type {} --edition {} -L dependency=build/deps `. -/
def baseArgsStr (r : Rule) : String :=
  "  args = --crate-type " ++ r.crate_type ++ " --edition " ++ r.edition ++
  " -L dependency=build/deps "

/-- The concatenated `--extern` flags of a rule's `args = ` line. -/
def externArgsStr (r : Rule) : String :=
  String.join (r.externArgs.map (fun p => "--extern " ++ p.1 ++ "=" ++ p.2 ++ " "))

/-- The lines `build_rule` writes, one list entry per output line:
header (`build {target}: rustc {deps} | {implicit_deps} ` plus one
`build/deps/lib{dep}.rlib ` per kept dependency), `name`, `args` (with the
`libc` override and the `--extern` pairings), `outdir`, `emit`, `depfile`,
and the trailing blank separator line. -/
def renderRule (r : Rule) : List String :=
  let norm := normalize_crate_name r.pkg_name
  [ "build " ++ r.target ++ ": rustc " ++ String.intercalate " " r.deps ++
      " | " ++ String.intercalate " " r.implicit_deps ++ " " ++
      String.join (r.implicitDepRefs.map (fun a => a ++ " ")),
    "  name = " ++ norm ++ " ",
    baseArgsStr r ++ (if norm == "libc" then LIBC_CFGS else "") ++
      externArgsStr r,
    "  outdir = " ++ r.outdir,
    "  emit = " ++ r.emit,
    "  depfile = " ++ r.outdir ++ "/" ++ norm ++ ".d",
    "" ]

/-! ## The `create` subcommand -/

/-- One item written inside the BFS loop of `create`: a rule block, or the
`default {path}` declaration. -/
inductive Entry
  | rule (r : Rule)
  | defaultTarget (path : String)
deriving DecidableEq, Repr

/-- Is this entry a rule block? -/
def Entry.isRule : Entry → Bool
  | .rule _ => true
  | .defaultTarget _ => false

/-- The path of a `default` declaration, if this entry is one. -/
def Entry.defaultOf : Entry → Option String
  | .rule _ => none
  | .defaultTarget p => some p

/-- The rule of a rule entry, if this entry is one. -/
def Entry.ruleOf : Entry → Option Rule
  | .rule r => some r
  | .defaultTarget _ => none

/-- The body of the BFS loop of `create` for the dequeued node `nx`: the
entries it writes, or the error it aborts with.  The root arm writes the
root's rule (`bin`, target `build/{norm}`, entry `src/main.rs`, implicit
input the lock file, hard-coded edition `2018`, emit `dep-info,link`)
followed by `default build/{norm}`; a skip-matched non-root node `continue`s;
any other node reads the crate's manifest from the registry (aborting when it
is missing or unparsable, or when — as `manifest.package.unwrap()` would
panic — it has no `[package]` section), resolves the library entry as the
declared `lib.path` override or `src/lib.rs`, joined to the crate's cache
directory, and writes a `lib` rule with both `.rlib` and `.rmeta` targets and
emit `dep-info,metadata,link`. -/
def processNode (g : Graph) (root_idx : Nat) (registry : Registry)
    (lockfile : String) (nx : Nat) : Except String (List Entry) :=
  let node := g.node! nx
  let pkg_name := node.name
  let norm_pkg_name := normalize_crate_name pkg_name
  if nx = root_idx then
    .ok [ .rule (build_rule pkg_name ("build/" ++ norm_pkg_name)
            ["src/main.rs"] [lockfile] "build" "bin" "2018" "dep-info,link"
            (depNamesOf g node)),
          .defaultTarget ("build/" ++ norm_pkg_name) ]
  else if skip_dep pkg_name then
    .ok []
  else
    let crate_path := REGISTRY_PATH ++ "/" ++ pkg_name ++ "-" ++ node.version
    match registry (pkg_name ++ "-" ++ node.version) with
    | none => .error ("cannot read manifest: " ++ crate_path ++ "/Cargo.toml")
    | some manifest =>
      match manifest.package with
      | none => .error "missing package section"
      | some pkgSection =>
        let entry := (manifest.lib.bind LibSection.path).getD "src/lib.rs"
        let entry_path := crate_path ++ "/" ++ entry
        .ok [ .rule (build_rule pkg_name
                ("build/deps/lib" ++ norm_pkg_name ++ ".rlib build/deps/lib" ++
                  norm_pkg_name ++ ".rmeta")
                [entry_path] [] "build/deps" "lib"
                (edition pkgSection.edition) "dep-info,metadata,link"
                (depNamesOf g node)) ]

/-- The entries a node contributes when its `processNode` succeeds (and `[]`
when it aborts). -/
def entriesAt (g : Graph) (root_idx : Nat) (registry : Registry)
    (lockfile : String) (nx : Nat) : List Entry :=
  match processNode g root_idx registry lockfile nx with
  | .ok es => es
  | .error _ => []

/-- Run the loop body over the visit order, accumulating the entries written
so far; on the first error the already-written entries persist (the file is
left truncated) and the error is reported. -/
def emitNodes (g : Graph) (root_idx : Nat) (registry : Registry)
    (lockfile : String) : List Nat → List Entry × Option String
  | [] => ([], none)
  | nx :: rest =>
    match processNode g root_idx registry lockfile nx with
    | .error e => ([], some e)
    | .ok es =>
      let p := emitNodes g root_idx registry lockfile rest
      (es ++ p.1, p.2)

/-- The BFS loop of `fn create`: entries written (in order) and the error it
aborted with, if any. -/
def create (g : Graph) (root_idx : Nat) (registry : Registry)
    (lockfile : String) : List Entry × Option String :=
  emitNodes g root_idx registry lockfile (bfsOrder g root_idx)

/-! ## The plan file as text -/

/-- `const DEFAULT_RULES`, as the lines `writeln!(rules, "{}", DEFAULT_RULES)`
produces (the raw string ends in a newline, and `writeln!` appends another,
hence the trailing blank line). -/
def preambleLines : List String :=
  [ "# Rules generated by bygge. DO NOT MODIFY BY HAND!",
    "extraargs = --cap-lints allow -C debuginfo=2",
    "",
    "rule cargo-fetch",
    "  command = cargo fetch --manifest-path $in && touch $out",
    "  description = CARGO $in",
    "",
    "rule rustc",
    "  command = rustc --crate-name $name $in --emit=$emit --out-dir $outdir" ++
      " $extraargs $args && sed -i \x27\x27 \x27/\\.d:/g\x27 $depfile",
    "  description = RUSTC $out",
    "  depfile = $depfile",
    "  deps = gcc",
    "",
    "build Cargo.lock: cargo-fetch Cargo.toml",
    "" ]

/-- The lines an entry contributes to the plan file. -/
def renderEntry : Entry → List String
  | .rule r => renderRule r
  | .defaultTarget p => ["default " ++ p]

/-- The full content of the ninja file `create` writes (as lines), together
with the error it aborted with, if any: the preamble is written before the
traversal, and on an abort the lines already written remain on disk. -/
def createLines (g : Graph) (root_idx : Nat) (registry : Registry)
    (lockfile : String) : List String × Option String :=
  let p := create g root_idx registry lockfile
  (preambleLines ++ (p.1.map renderEntry).flatten, p.2)

/-- The rule canonically emitted for the root package. -/
def rootRule (g : Graph) (root_idx : Nat) (lockfile : String) : Rule :=
  build_rule (g.node! root_idx).name
    ("build/" ++ normalize_crate_name (g.node! root_idx).name)
    ["src/main.rs"] [lockfile] "build" "bin" "2018" "dep-info,link"
    (depNamesOf g (g.node! root_idx))

/-! ## Lemmas about the string helpers -/

/-- `isPrefixList` decides list-prefix. -/
theorem isPrefixList_iff (p l : List Char) :
    isPrefixList p l = true ↔ ∃ t, l = p ++ t := by
  induction p generalizing l with
  | nil => simp [isPrefixList]
  | cons a as ih =>
    cases l with
    | nil => simp [isPrefixList]
    | cons b bs =>
      simp only [isPrefixList, Bool.and_eq_true, beq_iff_eq, ih,
        List.cons_append, List.cons.injEq]
      constructor
      · rintro ⟨rfl, t, rfl⟩; exact ⟨t, rfl, rfl⟩
      · rintro ⟨t, rfl, rfl⟩; exact ⟨rfl, t, rfl⟩

/-- `containsList` decides contiguous-sublist occurrence. -/
theorem containsList_iff (p l : List Char) :
    containsList p l = true ↔ ∃ s t, l = s ++ p ++ t := by
  induction l with
  | nil =>
    simp only [containsList, isPrefixList_iff]
    constructor
    · rintro ⟨t, ht⟩
      exact ⟨[], t, by simpa using ht⟩
    · rintro ⟨s, t, h⟩
      obtain ⟨h1, rfl⟩ := List.append_eq_nil.mp h.symm
      obtain ⟨rfl, rfl⟩ := List.append_eq_nil.mp h1
      exact ⟨[], rfl⟩
  | cons c cs ih =>
    simp only [containsList, Bool.or_eq_true, isPrefixList_iff, ih]
    constructor
    · rintro (⟨t, ht⟩ | ⟨s, t, ht⟩)
      · exact ⟨[], t, by simpa using ht⟩
      · exact ⟨c :: s, t, by simp [ht]⟩
    · rintro ⟨s, t, ht⟩
      cases s with
      | nil => exact Or.inl ⟨t, by simpa using ht⟩
      | cons x xs =>
        right
        obtain ⟨rfl, h2⟩ : x = c ∧ cs = xs ++ p ++ t := by
          simpa [List.cons_append, eq_comm] using ht
        exact ⟨xs, t, h2⟩

/-- Splitting a mapped list along an append. -/
theorem map_eq_append_decomp {α β : Type} (f : α → β) (l : List α)
    (u v : List β) (h : l.map f = u ++ v) :
    ∃ u' v', l = u' ++ v' ∧ u'.map f = u ∧ v'.map f = v := by
  induction u generalizing l with
  | nil => exact ⟨[], l, by simpa using h⟩
  | cons b bs ih =>
    cases l with
    | nil => simp at h
    | cons a as =>
      simp only [List.map_cons, List.cons_append, List.cons.injEq] at h
      obtain ⟨rfl, h2⟩ := h
      obtain ⟨u', v', rfl, hu, hv⟩ := ih as h2
      exact ⟨a :: u', v', rfl, by simp [hu], hv⟩

/-- The character map performed by `normalize_crate_name`. -/
def normChar (c : Char) : Char :=
  if c = '-' then '_' else c

theorem normalize_data (s : String) :
    (normalize_crate_name s).data = s.data.map normChar := rfl

/-- A block that maps onto an underscore-free pattern is that pattern. -/
theorem map_normChar_fixed (p m : List Char) (hno : ∀ c ∈ p, c ≠ '_')
    (h : m.map normChar = p) : m = p := by
  induction m generalizing p with
  | nil => simpa using h.symm
  | cons a as ih =>
    cases p with
    | nil => simp at h
    | cons b bs =>
      simp only [List.map_cons, List.cons.injEq] at h
      obtain ⟨hab, h2⟩ := h
      have hb : b ≠ '_' := hno b (by simp)
      have : a = b := by
        by_cases hc : a = '-'
        · exact absurd (by rw [← hab, hc]; decide : b = '_') hb
        · simpa [normChar, hc] using hab
      subst this
      exact congrArg (a :: ·) (ih bs (fun c hc => hno c (by simp [hc])) h2)

/-- Occurrence of an underscore-free, hyphen-free pattern is preserved and
reflected by `normalize_crate_name`'s character map. -/
theorem containsList_map_normChar (p l : List Char)
    (hfix : p.map normChar = p) (hno : ∀ c ∈ p, c ≠ '_') :
    containsList p (l.map normChar) = true ↔ containsList p l = true := by
  simp only [containsList_iff]
  constructor
  · rintro ⟨s, t, h⟩
    obtain ⟨u', v', rfl, hu, hv⟩ := map_eq_append_decomp normChar l (s ++ p) t h
    obtain ⟨s', m, rfl, hs, hm⟩ := map_eq_append_decomp normChar u' s p hu
    have hmp : m = p := map_normChar_fixed p m hno hm
    exact ⟨s', v', by rw [hmp]⟩
  · rintro ⟨s, t, rfl⟩
    exact ⟨s.map normChar, t.map normChar, by simp [hfix]⟩

/-- `skip_dep` only inspects the raw name through the two fixed patterns
`winapi` and `redox`; since neither contains `-` or `_`, two names with equal
normalized forms are either both skipped or both kept. -/
theorem skip_dep_of_normalize_eq (w d : String) (hw : skip_dep w = true)
    (heq : normalize_crate_name w = normalize_crate_name d) :
    skip_dep d = true := by
  have hdata : w.data.map normChar = d.data.map normChar := by
    have := congrArg String.data heq
    rwa [normalize_data, normalize_data] at this
  have key : ∀ p : List Char, p.map normChar = p → (∀ c ∈ p, c ≠ '_') →
      containsList p w.data = true → containsList p d.data = true := by
    intro p hfix hno hc
    have h1 : containsList p (w.data.map normChar) = true :=
      (containsList_map_normChar p w.data hfix hno).mpr hc
    rw [hdata] at h1
    exact (containsList_map_normChar p d.data hfix hno).mp h1
  simp only [skip_dep, str_contains, Bool.or_eq_true] at hw ⊢
  rcases hw with hw | hw
  · exact Or.inl (key _ (by decide) (by decide) hw)
  · exact Or.inr (key _ (by decide) (by decide) hw)

/-- Equal archive artifact paths force equal normalized names. -/
theorem normalize_eq_of_depArtifact_eq (d w : String)
    (h : depArtifact d = depArtifact w) :
    normalize_crate_name d = normalize_crate_name w := by
  have hdata := congrArg String.data h
  simp only [depArtifact, String.data_append] at hdata
  apply String.ext
  exact List.append_cancel_left (List.append_cancel_right hdata)

/-! ## BFS correctness -/

/-- `pushNew` appends exactly the fresh elements of `ns` to the queue, and
prepends them (in reverse) to the discovered list. -/
theorem pushNew_spec (disc queue ns : List Nat) :
    ∃ new : List Nat,
      pushNew disc queue ns = (new ++ disc, queue ++ new.reverse) ∧
      new.Nodup ∧ (∀ x, x ∈ new ↔ x ∈ ns ∧ x ∉ disc) := by
  induction ns generalizing disc queue with
  | nil => exact ⟨[], by simp [pushNew], List.nodup_nil, by simp⟩
  | cons v vs ih =>
    by_cases hv : v ∈ disc
    · obtain ⟨new, heq, hnd, hmem⟩ := ih disc queue
      refine ⟨new, by simp [pushNew, hv, heq], hnd, fun x => ?_⟩
      rw [hmem]
      constructor
      · rintro ⟨h1, h2⟩; exact ⟨by simp [h1], h2⟩
      · rintro ⟨h1, h2⟩
        rcases List.mem_cons.mp h1 with rfl | h1
        · exact absurd hv h2
        · exact ⟨h1, h2⟩
    · obtain ⟨new, heq, hnd, hmem⟩ := ih (v :: disc) (queue ++ [v])
      have hvn : v ∉ new := fun h => ((hmem v).mp h).2 (by simp)
      refine ⟨new ++ [v], ?_, ?_, fun x => ?_⟩
      · rw [pushNew, if_neg hv, heq]
        simp
      · simpa [List.nodup_append] using ⟨hnd, hvn⟩
      · constructor
        · intro h
          rcases List.mem_append.mp h with h | h
          · obtain ⟨h1, h2⟩ := (hmem x).mp h
            have h3 : x ∉ disc := fun hd => h2 (by simp [hd])
            exact ⟨by simp [h1], h3⟩
          · have hx : x = v := by simpa using h
            exact ⟨by simp [hx], hx ▸ hv⟩
        · rintro ⟨h1, h2⟩
          rcases List.mem_cons.mp h1 with rfl | h1
          · exact List.mem_append.mpr (Or.inr (by simp))
          · by_cases hx : x = v
            · exact List.mem_append.mpr (Or.inr (by simp [hx]))
            · refine List.mem_append.mpr (Or.inl ((hmem x).mpr ⟨h1, ?_⟩))
              simp only [List.mem_cons, not_or]
              exact ⟨hx, h2⟩

/-- Every node the fuelled loop still visits is either already queued or not
yet discovered. -/
theorem bfsAux_mem_sub (g : Graph) (fuel : Nat) (queue disc : List Nat)
    (hq : ∀ x ∈ queue, x ∈ disc) :
    ∀ v ∈ bfsAux g fuel queue disc, v ∈ queue ∨ v ∉ disc := by
  induction fuel generalizing queue disc with
  | zero => intro v hv; simp [bfsAux] at hv
  | succ f ih =>
    cases queue with
    | nil => intro v hv; simp [bfsAux] at hv
    | cons u rest =>
      intro v hv
      obtain ⟨new, heq, hnd, hmem⟩ :=
        pushNew_spec disc rest (g.node! u).dependencies
      simp only [bfsAux, heq, List.mem_cons] at hv
      rcases hv with rfl | hv
      · exact Or.inl (by simp)
      · have hq' : ∀ x ∈ rest ++ new.reverse, x ∈ new ++ disc := by
          intro x hx
          rcases List.mem_append.mp hx with hx | hx
          · exact List.mem_append.mpr (Or.inr (hq x (by simp [hx])))
          · exact List.mem_append.mpr (Or.inl (List.mem_reverse.mp hx))
        rcases ih (rest ++ new.reverse) (new ++ disc) hq' v hv with h | h
        · rcases List.mem_append.mp h with h | h
          · exact Or.inl (by simp [h])
          · exact Or.inr ((hmem v).mp (List.mem_reverse.mp h)).2
        · exact Or.inr fun hd => h (List.mem_append.mpr (Or.inr hd))

/-- The visit order never repeats a node. -/
theorem bfsAux_nodup (g : Graph) (fuel : Nat) (queue disc : List Nat)
    (hqn : queue.Nodup) (hq : ∀ x ∈ queue, x ∈ disc) :
    (bfsAux g fuel queue disc).Nodup := by
  induction fuel generalizing queue disc with
  | zero => simp [bfsAux]
  | succ f ih =>
    cases queue with
    | nil => simp [bfsAux]
    | cons u rest =>
      obtain ⟨new, heq, hnd, hmem⟩ :=
        pushNew_spec disc rest (g.node! u).dependencies
      simp only [bfsAux, heq]
      have hq' : ∀ x ∈ rest ++ new.reverse, x ∈ new ++ disc := by
        intro x hx
        rcases List.mem_append.mp hx with hx | hx
        · exact List.mem_append.mpr (Or.inr (hq x (by simp [hx])))
        · exact List.mem_append.mpr (Or.inl (List.mem_reverse.mp hx))
      have hqn' : (rest ++ new.reverse).Nodup := by
        refine (List.nodup_cons.mp hqn).2.append (List.nodup_reverse.mpr hnd) ?_
        intro x hx1 hx2
        exact ((hmem x).mp (List.mem_reverse.mp hx2)).2 (hq x (by simp [hx1]))
      refine List.nodup_cons.mpr ⟨?_, ih _ _ hqn' hq'⟩
      intro hu
      rcases bfsAux_mem_sub g f _ _ hq' u hu with h | h
      · rcases List.mem_append.mp h with h | h
        · exact (List.nodup_cons.mp hqn).1 h
        · exact ((hmem u).mp (List.mem_reverse.mp h)).2 (hq u (by simp))
      · exact h (List.mem_append.mpr (Or.inr (hq u (by simp))))

/-- Every visited node is reachable. -/
theorem bfsAux_sound (g : Graph) (root : Nat) (fuel : Nat)
    (queue disc : List Nat) (hd : ∀ x ∈ disc, Reaches g root x)
    (hq : ∀ x ∈ queue, x ∈ disc) :
    ∀ v ∈ bfsAux g fuel queue disc, Reaches g root v := by
  induction fuel generalizing queue disc with
  | zero => intro v hv; simp [bfsAux] at hv
  | succ f ih =>
    cases queue with
    | nil => intro v hv; simp [bfsAux] at hv
    | cons u rest =>
      obtain ⟨new, heq, hnd, hmem⟩ :=
        pushNew_spec disc rest (g.node! u).dependencies
      intro v hv
      simp only [bfsAux, heq, List.mem_cons] at hv
      rcases hv with rfl | hv
      · exact hd v (hq v (by simp))
      · have hd' : ∀ x ∈ new ++ disc, Reaches g root x := by
          intro x hx
          rcases List.mem_append.mp hx with hx | hx
          · exact Reaches.step (hd u (hq u (by simp))) ((hmem x).mp hx).1
          · exact hd x hx
        have hq' : ∀ x ∈ rest ++ new.reverse, x ∈ new ++ disc := by
          intro x hx
          rcases List.mem_append.mp hx with hx | hx
          · exact List.mem_append.mpr (Or.inr (hq x (by simp [hx])))
          · exact List.mem_append.mpr (Or.inl (List.mem_reverse.mp hx))
        exact ih _ _ hd' hq' v hv

/-- Master completeness invariant for the fuelled BFS loop: with enough fuel
(one unit per queued node plus one per still-undiscovered node) every queued
node is visited, and every visited node's dependencies end up discovered or
visited. -/
theorem bfsAux_complete (g : Graph) (fuel : Nat) (queue disc : List Nat)
    (hWF : g.WF) (hq : ∀ x ∈ queue, x ∈ disc) (hd : disc.Nodup)
    (hdn : ∀ x ∈ disc, x < g.nodes.length)
    (hfuel : queue.length +
      (Finset.range g.nodes.length \ disc.toFinset).card ≤ fuel) :
    (∀ x ∈ queue, x ∈ bfsAux g fuel queue disc) ∧
    (∀ u ∈ bfsAux g fuel queue disc, ∀ d ∈ (g.node! u).dependencies,
      d ∈ disc ∨ d ∈ bfsAux g fuel queue disc) := by
  induction fuel generalizing queue disc with
  | zero =>
    have hq0 : queue = [] := List.eq_nil_of_length_eq_zero (by omega)
    subst hq0
    exact ⟨by simp, by simp [bfsAux]⟩
  | succ f ih =>
    cases queue with
    | nil => exact ⟨by simp, by simp [bfsAux]⟩
    | cons u rest =>
      obtain ⟨new, heq, hnew_nd, hmem⟩ :=
        pushNew_spec disc rest (g.node! u).dependencies
      have hu_lt : u < g.nodes.length := hdn u (hq u (by simp))
      have hnode_mem : g.node! u ∈ g.nodes := by
        have : g.node! u = g.nodes.get ⟨u, hu_lt⟩ := by
          simp [Graph.node!, List.getD_eq_getElem?_getD,
            List.getElem?_eq_getElem hu_lt]
        rw [this]
        exact List.get_mem _ _ _
      have hdeps_lt : ∀ d ∈ (g.node! u).dependencies, d < g.nodes.length :=
        hWF _ hnode_mem
      have hq' : ∀ x ∈ rest ++ new.reverse, x ∈ new ++ disc := by
        intro x hx
        rcases List.mem_append.mp hx with hx | hx
        · exact List.mem_append.mpr (Or.inr (hq x (by simp [hx])))
        · exact List.mem_append.mpr (Or.inl (List.mem_reverse.mp hx))
      have hd' : (new ++ disc).Nodup := by
        refine hnew_nd.append hd ?_
        intro x hx1 hx2
        exact ((hmem x).mp hx1).2 hx2
      have hdn' : ∀ x ∈ new ++ disc, x < g.nodes.length := by
        intro x hx
        rcases List.mem_append.mp hx with hx | hx
        · exact hdeps_lt x ((hmem x).mp hx).1
        · exact hdn x hx
      have hsub : new.toFinset ⊆
          Finset.range g.nodes.length \ disc.toFinset := by
        intro x hx
        rw [List.mem_toFinset] at hx
        rw [Finset.mem_sdiff, Finset.mem_range, List.mem_toFinset]
        exact ⟨hdeps_lt x ((hmem x).mp hx).1, ((hmem x).mp hx).2⟩
      have hcard_new : new.toFinset.card = new.length :=
        List.toFinset_card_of_nodup hnew_nd
      have hsd : Finset.range g.nodes.length \ (new ++ disc).toFinset =
          (Finset.range g.nodes.length \ disc.toFinset) \ new.toFinset := by
        ext x
        simp only [Finset.mem_sdiff, Finset.mem_range, List.mem_toFinset,
          List.mem_append, not_or]
        tauto
      have hcard_le : new.toFinset.card ≤
          (Finset.range g.nodes.length \ disc.toFinset).card :=
        Finset.card_le_card hsub
      have hfuel' : (rest ++ new.reverse).length +
          (Finset.range g.nodes.length \ (new ++ disc).toFinset).card ≤ f := by
        rw [hsd, Finset.card_sdiff hsub, hcard_new]
        simp only [List.length_append, List.length_reverse]
        simp only [List.length_cons] at hfuel
        omega
      obtain ⟨P1, P2⟩ := ih (rest ++ new.reverse) (new ++ disc) hq' hd' hdn'
        hfuel'
      rw [show bfsAux g (f + 1) (u :: rest) disc =
        u :: bfsAux g f (rest ++ new.reverse) (new ++ disc) by
          simp [bfsAux, heq]]
      constructor
      · intro x hx
        rcases List.mem_cons.mp hx with rfl | hx
        · exact List.mem_cons_self _ _
        · exact List.mem_cons_of_mem _ (P1 x (List.mem_append.mpr (Or.inl hx)))
      · intro v hv d hdep
        rcases List.mem_cons.mp hv with rfl | hv
        · by_cases hdd : d ∈ disc
          · exact Or.inl hdd
          · have hdn2 : d ∈ new := (hmem d).mpr ⟨hdep, hdd⟩
            refine Or.inr (List.mem_cons_of_mem _ (P1 d ?_))
            exact List.mem_append.mpr (Or.inr (List.mem_reverse.mpr hdn2))
        · rcases P2 v hv d hdep with h | h
          · rcases List.mem_append.mp h with h | h
            · refine Or.inr (List.mem_cons_of_mem _ (P1 d ?_))
              exact List.mem_append.mpr (Or.inr (List.mem_reverse.mpr h))
            · exact Or.inl h
          · exact Or.inr (List.mem_cons_of_mem _ h)

/-- The BFS visit order never repeats a node (diamond-dependency
idempotence). -/
theorem bfsOrder_nodup (g : Graph) (root : Nat) : (bfsOrder g root).Nodup :=
  bfsAux_nodup g _ [root] [root] (by simp) (by simp)

/-- Every visited node is reachable from the root. -/
theorem bfsOrder_sound (g : Graph) (root : Nat) :
    ∀ v ∈ bfsOrder g root, Reaches g root v :=
  bfsAux_sound g root _ [root] [root]
    (by intro x hx; rw [List.mem_singleton.mp hx]; exact Reaches.refl)
    (by simp)

/-- Every node reachable from the root — skip-matched intermediates
included, since the queueing never consults `skip_dep` — is visited. -/
theorem bfsOrder_complete (g : Graph) (root : Nat) (hWF : g.WF)
    (hroot : root < g.nodes.length) :
    ∀ v, Reaches g root v → v ∈ bfsOrder g root := by
  have hsub : ([root].toFinset : Finset Nat) ⊆ Finset.range g.nodes.length := by
    simpa using hroot
  have hfuel : ([root] : List Nat).length +
      (Finset.range g.nodes.length \ [root].toFinset).card ≤
        g.nodes.length := by
    rw [Finset.card_sdiff hsub]
    have h1 : ([root].toFinset : Finset Nat).card = 1 := by simp
    have h2 : (Finset.range g.nodes.length).card = g.nodes.length := by simp
    simp only [List.length_singleton, h1, h2]
    omega
  obtain ⟨P1, P2⟩ := bfsAux_complete g g.nodes.length [root] [root] hWF
    (by simp) (by simp) (by simpa using hroot) hfuel
  intro v hv
  induction hv with
  | refl => exact P1 root (by simp)
  | step hr hdep ih =>
    rcases P2 _ ih _ hdep with h | h
    · rw [List.mem_singleton.mp h]
      exact P1 root (by simp)
    · exact h

/-- The root is always the first node visited. -/
theorem bfsOrder_head (g : Graph) (root : Nat)
    (hroot : root < g.nodes.length) :
    ∃ t, bfsOrder g root = root :: t := by
  obtain ⟨m, hm⟩ : ∃ m, g.nodes.length = m + 1 :=
    ⟨g.nodes.length - 1, by omega⟩
  refine ⟨bfsAux g m (pushNew [root] [] (g.node! root).dependencies).2
    (pushNew [root] [] (g.node! root).dependencies).1, ?_⟩
  rw [bfsOrder, hm]
  rfl

/-! ## Emission lemmas -/

/-- The loop body at the root node: the root's rule (a `bin` rule with the
fixed entry `src/main.rs`) followed by the `default` declaration. -/
theorem processNode_root (g : Graph) (root : Nat) (registry : Registry)
    (lockfile : String) :
    processNode g root registry lockfile root =
      .ok [ .rule (rootRule g root lockfile),
            .defaultTarget
              ("build/" ++ normalize_crate_name (g.node! root).name) ] := by
  simp [processNode, rootRule]

/-- At a non-root node the loop body contributes either nothing (skip or
abort) or a single `lib` rule. -/
theorem entriesAt_ne_root (g : Graph) (root : Nat) (registry : Registry)
    (lockfile : String) (v : Nat) (hv : v ≠ root) :
    entriesAt g root registry lockfile v = [] ∨
    ∃ r, entriesAt g root registry lockfile v = [Entry.rule r] := by
  rw [entriesAt, processNode, if_neg hv]
  by_cases hs : skip_dep (g.node! v).name = true
  · simp [hs]
  · simp only [Bool.not_eq_true] at hs
    simp only [hs]
    cases registry ((g.node! v).name ++ "-" ++ (g.node! v).version) with
    | none => simp
    | some m =>
      obtain ⟨pkg, lib⟩ := m
      cases pkg with
      | none => simp
      | some ps => simp

/-- The loop aborts with no error exactly when every visited node's body
succeeds. -/
theorem emitNodes_none_iff (g : Graph) (root : Nat) (registry : Registry)
    (lockfile : String) (order : List Nat) :
    (emitNodes g root registry lockfile order).2 = none ↔
    ∀ v ∈ order, ∃ es, processNode g root registry lockfile v = .ok es := by
  induction order with
  | nil => simp [emitNodes]
  | cons u rest ih =>
    cases hpu : processNode g root registry lockfile u with
    | error e =>
      simp only [emitNodes, hpu]
      constructor
      · intro h; cases h
      · intro h
        obtain ⟨es, hes⟩ := h u (by simp)
        rw [hpu] at hes; cases hes
    | ok es =>
      simp only [emitNodes, hpu]
      rw [ih]
      constructor
      · intro h v hv
        rcases List.mem_cons.mp hv with rfl | hv
        · exact ⟨es, hpu⟩
        · exact h v hv
      · intro h v hv
        exact h v (by simp [hv])

/-- When no body aborts, the entries written are the per-node contributions
concatenated along the visit order. -/
theorem emitNodes_flatten (g : Graph) (root : Nat) (registry : Registry)
    (lockfile : String) (order : List Nat)
    (h : ∀ v ∈ order, ∃ es, processNode g root registry lockfile v = .ok es) :
    (emitNodes g root registry lockfile order).1 =
      (order.map (entriesAt g root registry lockfile)).flatten := by
  induction order with
  | nil => simp [emitNodes]
  | cons u rest ih =>
    obtain ⟨es, hes⟩ := h u (by simp)
    simp only [emitNodes, hes, List.map_cons, List.flatten_cons]
    rw [ih (fun v hv => h v (by simp [hv]))]
    congr 1
    simp [entriesAt, hes]

/-- Every entry ever written (also in an aborted run) is some visited node's
contribution. -/
theorem emitNodes_mem (g : Graph) (root : Nat) (registry : Registry)
    (lockfile : String) (order : List Nat) (e : Entry)
    (he : e ∈ (emitNodes g root registry lockfile order).1) :
    ∃ v ∈ order, e ∈ entriesAt g root registry lockfile v := by
  induction order with
  | nil => simp [emitNodes] at he
  | cons u rest ih =>
    cases hpu : processNode g root registry lockfile u with
    | error msg => rw [emitNodes, hpu] at he; simp at he
    | ok es =>
      rw [emitNodes, hpu] at he
      rcases List.mem_append.mp he with h | h
      · exact ⟨u, by simp, by simp [entriesAt, hpu, h]⟩
      · obtain ⟨v, hv, hev⟩ := ih h
        exact ⟨v, by simp [hv], hev⟩

/-- `create` always starts by writing the root's rule and the `default`
declaration, then processes the dependencies. -/
theorem create_cons (g : Graph) (root : Nat) (registry : Registry)
    (lockfile : String) (hroot : root < g.nodes.length) :
    ∃ t, bfsOrder g root = root :: t ∧ root ∉ t ∧
      create g root registry lockfile =
        ( Entry.rule (rootRule g root lockfile) ::
          Entry.defaultTarget
            ("build/" ++ normalize_crate_name (g.node! root).name) ::
          (emitNodes g root registry lockfile t).1,
          (emitNodes g root registry lockfile t).2) := by
  obtain ⟨t, ht⟩ := bfsOrder_head g root hroot
  have hnd := bfsOrder_nodup g root
  rw [ht] at hnd
  refine ⟨t, ht, (List.nodup_cons.mp hnd).1, ?_⟩
  rw [create, ht, emitNodes, processNode_root]
  rfl

/-- Splitting the library rule's target string at its separating space: the
two artifact paths share the normalized-name stem. -/
theorem lib_target_split (n : String) :
    ("build/deps/lib" ++ n ++ ".rlib") ++ " " ++
      ("build/deps/lib" ++ n ++ ".rmeta") =
    "build/deps/lib" ++ n ++ ".rlib build/deps/lib" ++ n ++ ".rmeta" := by
  have h1 : (".rlib " : String) ++ "build/deps/lib" = ".rlib build/deps/lib" :=
    rfl
  have h2 : ∀ y : String, (".rlib " : String) ++ ("build/deps/lib" ++ y) =
      ".rlib build/deps/lib" ++ y := by
    intro y
    rw [← String.append_assoc, h1]
  simp [String.append_assoc, h2]

/-- Nodes other than the root never write a `default` declaration. -/
theorem no_default_in_tail (g : Graph) (root : Nat) (registry : Registry)
    (lockfile : String) (t : List Nat) (hrt : root ∉ t) :
    ∀ e ∈ (emitNodes g root registry lockfile t).1, Entry.defaultOf e = none := by
  intro e he
  obtain ⟨v, hv, hev⟩ := emitNodes_mem g root registry lockfile t e he
  have hvr : v ≠ root := fun h => hrt (h ▸ hv)
  rcases entriesAt_ne_root g root registry lockfile v hvr with h | ⟨r, h⟩
  · rw [h] at hev
    simp at hev
  · rw [h] at hev
    rw [List.mem_singleton.mp hev]
    rfl

/-- The exact body result at a visited non-root, non-skipped node whose
manifest read succeeds: one `lib` rule, with both archive and metadata
targets, the resolved entry path as its single explicit input, and the
manifest's mapped edition. -/
theorem processNode_shape (g : Graph) (root : Nat) (registry : Registry)
    (lockfile : String) (v : Nat) (hvr : v ≠ root)
    (hskip : skip_dep (g.node! v).name = false)
    (hok : ∃ es, processNode g root registry lockfile v = .ok es) :
    ∃ m ps,
      registry ((g.node! v).name ++ "-" ++ (g.node! v).version) = some m ∧
      m.package = some ps ∧
      processNode g root registry lockfile v = .ok
        [Entry.rule (build_rule (g.node! v).name
          ("build/deps/lib" ++ normalize_crate_name (g.node! v).name ++
            ".rlib build/deps/lib" ++
            normalize_crate_name (g.node! v).name ++ ".rmeta")
          [REGISTRY_PATH ++ "/" ++ (g.node! v).name ++ "-" ++
            (g.node! v).version ++ "/" ++
            (m.lib.bind LibSection.path).getD "src/lib.rs"]
          [] "build/deps" "lib" (edition ps.edition) "dep-info,metadata,link"
          (depNamesOf g (g.node! v)))] := by
  obtain ⟨es, hes⟩ := hok
  rw [processNode, if_neg hvr] at hes
  simp only [hskip, Bool.false_eq_true, if_false] at hes
  cases hreg : registry ((g.node! v).name ++ "-" ++ (g.node! v).version) with
  | none =>
    simp only [hreg] at hes
    cases hes
  | some m =>
    simp only [hreg] at hes
    cases hpkg : m.package with
    | none =>
      simp only [hpkg] at hes
      cases hes
    | some ps =>
      refine ⟨m, ps, rfl, hpkg, ?_⟩
      rw [processNode, if_neg hvr]
      simp only [hskip, Bool.false_eq_true, if_false, hreg, hpkg]

/-- Every rule a node contributes carries exactly that node's declared
direct-dependency names. -/
theorem entriesAt_rule_dep_names (g : Graph) (root : Nat)
    (registry : Registry) (lockfile : String) (u : Nat) (r : Rule)
    (h : Entry.rule r ∈ entriesAt g root registry lockfile u) :
    r.dep_names = depNamesOf g (g.node! u) := by
  by_cases hur : u = root
  · subst hur
    rw [entriesAt, processNode_root] at h
    rcases List.mem_cons.mp h with h | h
    · injection h with h
      subst h
      rfl
    · simp at h
  · rcases entriesAt_ne_root g root registry lockfile u hur with hnil | ⟨r', hr'⟩
    · rw [hnil] at h
      simp at h
    · have hok : ∃ es, processNode g root registry lockfile u = .ok es := by
        rcases hps : processNode g root registry lockfile u with e | es
        · rw [entriesAt, hps] at hr'
          cases hr'
        · exact ⟨es, rfl⟩
      have hskip : skip_dep (g.node! u).name = false := by
        by_contra hs
        rw [Bool.not_eq_false] at hs
        obtain ⟨es, hes⟩ := hok
        rw [processNode, if_neg hur] at hes
        simp only [hs, if_true] at hes
        injection hes with hes
        rw [entriesAt, processNode, if_neg hur] at h
        simp only [hs, if_true] at h
        simp at h
      obtain ⟨m, ps, hreg, hpkg, heq⟩ :=
        processNode_shape g root registry lockfile u hur hskip hok
      rw [entriesAt, heq] at h
      injection List.mem_singleton.mp h with h
      subst h
      rfl

/-- A kept dependency is never skip-matched. -/
theorem keptDeps_not_skip (r : Rule) (d : String) (hd : d ∈ r.keptDeps) :
    skip_dep d = false := by
  rw [Rule.keptDeps] at hd
  simpa using (List.mem_filter.mp hd).2

/-- No rule ever references the archive artifact of a skip-matched name,
neither among its implicit inputs nor in its `--extern` pairings. -/
theorem no_skipped_artifact (r : Rule) (w : String) (hw : skip_dep w = true) :
    depArtifact w ∉ r.implicitDepRefs ∧
    ∀ p ∈ r.externArgs, p.2 ≠ depArtifact w := by
  have key : ∀ d ∈ r.keptDeps, depArtifact d ≠ depArtifact w := by
    intro d hd hart
    have hds := keptDeps_not_skip r d hd
    have hnn := normalize_eq_of_depArtifact_eq d w hart
    have := skip_dep_of_normalize_eq w d hw hnn.symm
    rw [hds] at this
    cases this
  constructor
  · intro h
    obtain ⟨d, hd, hart⟩ := List.mem_map.mp h
    exact key d hd hart
  · intro p hp hart
    obtain ⟨d, hd, hpd⟩ := List.mem_map.mp hp
    have h2 : p.2 = depArtifact d := by rw [← hpd]
    exact key d hd (h2 ▸ hart)

/-! ## Concrete fixtures used by the witnesses and counterexamples -/

/-- Four packages: the root depends on `winapi-util` (skip-matched) and `a`;
both of those depend on `b` — a diamond whose left path runs through a
skipped node. -/
def gDiamond : Graph :=
  ⟨[⟨"root", "0.1.0", [1, 2]⟩, ⟨"winapi-util", "0.1.5", [3]⟩,
    ⟨"a", "1.0.0", [3]⟩, ⟨"b", "2.0.0", []⟩]⟩

/-- A cache holding manifests for `a` (no `[lib]` section, edition 2018) and
`b` (a `lib.path` override, edition 2015). -/
def regDiamond : Registry := fun k =>
  if k = "a-1.0.0" then some ⟨some ⟨.E2018⟩, none⟩
  else if k = "b-2.0.0" then some ⟨some ⟨.E2015⟩, some ⟨some "src/b_lib.rs"⟩⟩
  else none

/-- A single root package whose raw name is matched by the skip predicate. -/
def gSkipRoot : Graph := ⟨[⟨"winapi", "0.1.0", []⟩]⟩

/-- A root plus one ordinary dependency. -/
def gPair : Graph := ⟨[⟨"root", "0.1.0", [1]⟩, ⟨"a", "1.0.0", []⟩]⟩

/-- An empty package cache: every manifest read fails. -/
def regEmpty : Registry := fun _ => none

/-- `b` is reachable in `gDiamond` (through the skipped `winapi-util`). -/
theorem reaches_gDiamond_3 : Reaches gDiamond 0 3 :=
  Reaches.step
    (Reaches.step Reaches.refl
      (by decide : (1 : Nat) ∈ (gDiamond.node! 0).dependencies))
    (by decide : (3 : Nat) ∈ (gDiamond.node! 1).dependencies)

/-- The root reaches itself in `gDiamond`. -/
theorem reaches_gDiamond_0 : Reaches gDiamond 0 0 := Reaches.refl

/-- `a` is reachable in `gPair`. -/
theorem reaches_gPair_1 : Reaches gPair 0 1 :=
  Reaches.step Reaches.refl
    (by decide : (1 : Nat) ∈ (gPair.node! 0).dependencies)

/-- The root's rule is always present in the emitted plan. -/
theorem rootRule_mem (g : Graph) (root_idx : Nat) (registry : Registry)
    (lockfile : String) (hroot : root_idx < g.nodes.length) :
    Entry.rule (rootRule g root_idx lockfile) ∈
      (create g root_idx registry lockfile).1 := by
  obtain ⟨t, ht, hrt, hc⟩ := create_cons g root_idx registry lockfile hroot
  rw [hc]
  simp

/-- The `lib` rule `create` synthesizes for the node `v` given its cached
manifest `m` (with `[package]` section `ps`). -/
def libRule (g : Graph) (v : Nat) (m : Manifest) (ps : PackageSection) :
    Rule :=
  build_rule (g.node! v).name
    ("build/deps/lib" ++ normalize_crate_name (g.node! v).name ++
      ".rlib build/deps/lib" ++
      normalize_crate_name (g.node! v).name ++ ".rmeta")
    [REGISTRY_PATH ++ "/" ++ (g.node! v).name ++ "-" ++
      (g.node! v).version ++ "/" ++
      (m.lib.bind LibSection.path).getD "src/lib.rs"]
    [] "build/deps" "lib" (edition ps.edition) "dep-info,metadata,link"
    (depNamesOf g (g.node! v))

/-- The body result at a non-root, non-skipped node whose manifest is in the
cache with a `[package]` section. -/
theorem processNode_of_manifest (g : Graph) (root_idx : Nat)
    (registry : Registry) (lockfile : String) (v : Nat) (m : Manifest)
    (ps : PackageSection) (hvr : v ≠ root_idx)
    (hskip : skip_dep (g.node! v).name = false)
    (hreg : registry ((g.node! v).name ++ "-" ++ (g.node! v).version) = some m)
    (hpkg : m.package = some ps) :
    processNode g root_idx registry lockfile v =
      .ok [Entry.rule (libRule g v m ps)] := by
  rw [processNode, if_neg hvr]
  simp only [hskip, Bool.false_eq_true, if_false, hreg, hpkg]
  rfl

/-! ## The claims -/

/-- C1 counterexample: in `gSkipRoot` the root's raw name `winapi` is matched
by the skip predicate, yet `create` still emits a compile rule for that very
package — refuting the claim's "including the root package itself". -/
theorem C1_counterexample :
    skip_dep (gSkipRoot.node! 0).name = true ∧
    Entry.rule (rootRule gSkipRoot 0 "Cargo.lock") ∈
      (create gSkipRoot 0 regEmpty "Cargo.lock").1 ∧
    (rootRule gSkipRoot 0 "Cargo.lock").pkg_name = (gSkipRoot.node! 0).name := by
  decide

/-- C1 (amended): every NON-root package matched by the skip predicate gets
no rule (its visit contributes no entries to the plan, which is the
concatenation of the per-node contributions), and no rule in the plan
references its archive artifact path among its implicit inputs or `--extern`
pairings; the root package, by contrast, receives a rule even when its name
is matched by the skip predicate. -/
theorem C1_skip_excluded (g : Graph) (root_idx : Nat) (registry : Registry)
    (lockfile : String) (v : Nat)
    (hnoerr : (create g root_idx registry lockfile).2 = none)
    (hvr : v ≠ root_idx) (hskip : skip_dep (g.node! v).name = true) :
    entriesAt g root_idx registry lockfile v = [] ∧
    (create g root_idx registry lockfile).1 =
      ((bfsOrder g root_idx).map
        (entriesAt g root_idx registry lockfile)).flatten ∧
    (∀ e ∈ (create g root_idx registry lockfile).1, ∀ r, e = Entry.rule r →
      depArtifact (g.node! v).name ∉ r.implicitDepRefs ∧
      ∀ p ∈ r.externArgs, p.2 ≠ depArtifact (g.node! v).name) := by
  refine ⟨?_, ?_, ?_⟩
  · rw [entriesAt, processNode, if_neg hvr]
    simp [hskip]
  · exact emitNodes_flatten g root_idx registry lockfile _
      ((emitNodes_none_iff g root_idx registry lockfile _).mp hnoerr)
  · intro e he r her
    exact no_skipped_artifact r _ hskip

/-- Witness for C1 (amended) at `gDiamond`, `v = 1` (`winapi-util`). -/
theorem C1_skip_excluded_witness :
    ((create gDiamond 0 regDiamond "Cargo.lock").2 = none ∧
     (1 : Nat) ≠ 0 ∧ skip_dep (gDiamond.node! 1).name = true) ∧
    (entriesAt gDiamond 0 regDiamond "Cargo.lock" 1 = [] ∧
     (create gDiamond 0 regDiamond "Cargo.lock").1 =
       ((bfsOrder gDiamond 0).map
         (entriesAt gDiamond 0 regDiamond "Cargo.lock")).flatten ∧
     (∀ e ∈ (create gDiamond 0 regDiamond "Cargo.lock").1, ∀ r,
        e = Entry.rule r →
        depArtifact (gDiamond.node! 1).name ∉ r.implicitDepRefs ∧
        ∀ p ∈ r.externArgs, p.2 ≠ depArtifact (gDiamond.node! 1).name)) :=
  ⟨⟨by decide, by decide, by decide⟩,
   C1_skip_excluded gDiamond 0 regDiamond "Cargo.lock" 1 (by decide)
     (by decide) (by decide)⟩

/-- C2: for every graph with a designated root, the emitted plan contains
exactly one `default` declaration, and the path it names equals the output
artifact path (`target`) of the rule emitted for the root package. -/
theorem C2_single_default (g : Graph) (root_idx : Nat) (registry : Registry)
    (lockfile : String) (hroot : root_idx < g.nodes.length) :
    (create g root_idx registry lockfile).1.filterMap Entry.defaultOf =
      [(rootRule g root_idx lockfile).target] ∧
    Entry.rule (rootRule g root_idx lockfile) ∈
      (create g root_idx registry lockfile).1 := by
  refine ⟨?_, rootRule_mem g root_idx registry lockfile hroot⟩
  obtain ⟨t, ht, hrt, hc⟩ := create_cons g root_idx registry lockfile hroot
  rw [hc]
  have hnil : ((emitNodes g root_idx registry lockfile t).1.filterMap
      Entry.defaultOf) = [] :=
    List.filterMap_eq_nil_iff.mpr
      (no_default_in_tail g root_idx registry lockfile t hrt)
  simp [List.filterMap_cons, Entry.defaultOf, hnil, rootRule, build_rule]

/-- Witness for C2 at `gDiamond`. -/
theorem C2_single_default_witness :
    0 < gDiamond.nodes.length ∧
    ((create gDiamond 0 regDiamond "Cargo.lock").1.filterMap Entry.defaultOf =
       [(rootRule gDiamond 0 "Cargo.lock").target] ∧
     Entry.rule (rootRule gDiamond 0 "Cargo.lock") ∈
       (create gDiamond 0 regDiamond "Cargo.lock").1) :=
  ⟨by decide, C2_single_default gDiamond 0 regDiamond "Cargo.lock" (by decide)⟩

/-- C3: the plan is the concatenation of per-node contributions along the
BFS order; every package reachable from the root (also through skip-matched
intermediates) appears exactly once in that order, and a reachable package
not matched by the skip predicate contributes exactly one compile rule. -/
theorem C3_reachable_once (g : Graph) (root_idx : Nat) (registry : Registry)
    (lockfile : String) (v : Nat) (hWF : g.WF)
    (hroot : root_idx < g.nodes.length)
    (hnoerr : (create g root_idx registry lockfile).2 = none)
    (hv : Reaches g root_idx v)
    (hskip : skip_dep (g.node! v).name = false) :
    (create g root_idx registry lockfile).1 =
      ((bfsOrder g root_idx).map
        (entriesAt g root_idx registry lockfile)).flatten ∧
    (bfsOrder g root_idx).count v = 1 ∧
    (entriesAt g root_idx registry lockfile v).countP Entry.isRule = 1 := by
  have hall := (emitNodes_none_iff g root_idx registry lockfile _).mp hnoerr
  have hvmem : v ∈ bfsOrder g root_idx :=
    bfsOrder_complete g root_idx hWF hroot v hv
  refine ⟨emitNodes_flatten g root_idx registry lockfile _ hall,
    List.count_eq_one_of_mem (bfsOrder_nodup g root_idx) hvmem, ?_⟩
  by_cases hvr : v = root_idx
  · subst hvr
    rw [entriesAt, processNode_root]
    rfl
  · obtain ⟨m, ps, hreg, hpkg, heq⟩ :=
      processNode_shape g root_idx registry lockfile v hvr hskip (hall v hvmem)
    rw [entriesAt, heq]
    rfl

/-- Witness for C3 at `gDiamond`, `v = 3` (`b`, reachable twice over, once
through the skipped `winapi-util`). -/
theorem C3_reachable_once_witness :
    (gDiamond.WF ∧ 0 < gDiamond.nodes.length ∧
     (create gDiamond 0 regDiamond "Cargo.lock").2 = none ∧
     Reaches gDiamond 0 3 ∧ skip_dep (gDiamond.node! 3).name = false) ∧
    ((create gDiamond 0 regDiamond "Cargo.lock").1 =
       ((bfsOrder gDiamond 0).map
         (entriesAt gDiamond 0 regDiamond "Cargo.lock")).flatten ∧
     (bfsOrder gDiamond 0).count 3 = 1 ∧
     (entriesAt gDiamond 0 regDiamond "Cargo.lock" 3).countP Entry.isRule = 1) :=
  ⟨⟨by decide, by decide, by decide, reaches_gDiamond_3, by decide⟩,
   C3_reachable_once gDiamond 0 regDiamond "Cargo.lock" 3 (by decide)
     (by decide) (by decide) reaches_gDiamond_3 (by decide)⟩

/-- C4: name normalization replaces every `-` by `_` (a pure total function
on the character data), every rule a node contributes pairs each kept
dependency's normalized name with that dependency's archive artifact path in
its `--extern` pairings, and the dependency's own emitted rule names its
output artifacts with exactly the same normalized stem. -/
theorem C4_normalization_consistent (g : Graph) (root_idx : Nat)
    (registry : Registry) (lockfile : String) (u i : Nat) (hWF : g.WF)
    (hroot : root_idx < g.nodes.length)
    (hnoerr : (create g root_idx registry lockfile).2 = none)
    (hu : Reaches g root_idx u) (hi : i ∈ (g.node! u).dependencies)
    (hskip : skip_dep (g.node! i).name = false) (hir : i ≠ root_idx) :
    (∀ s, (normalize_crate_name s).data = s.data.map normChar) ∧
    (∀ r, Entry.rule r ∈ entriesAt g root_idx registry lockfile u →
      (normalize_crate_name (g.node! i).name, depArtifact (g.node! i).name) ∈
        r.externArgs) ∧
    (∃ r, Entry.rule r ∈ (create g root_idx registry lockfile).1 ∧
      r.pkg_name = (g.node! i).name ∧
      r.target =
        ("build/deps/lib" ++ normalize_crate_name (g.node! i).name ++ ".rlib")
        ++ " " ++
        ("build/deps/lib" ++ normalize_crate_name (g.node! i).name ++
          ".rmeta")) := by
  have hall := (emitNodes_none_iff g root_idx registry lockfile _).mp hnoerr
  refine ⟨fun s => rfl, ?_, ?_⟩
  · intro r hr
    have hdn := entriesAt_rule_dep_names g root_idx registry lockfile u r hr
    have hname : (g.node! i).name ∈ r.dep_names := by
      rw [hdn, depNamesOf]
      exact List.mem_map.mpr ⟨i, hi, rfl⟩
    have hkept : (g.node! i).name ∈ r.keptDeps :=
      List.mem_filter.mpr ⟨hname, by simp [hskip]⟩
    exact List.mem_map.mpr ⟨(g.node! i).name, hkept, rfl⟩
  · have hri : Reaches g root_idx i := Reaches.step hu hi
    have himem : i ∈ bfsOrder g root_idx :=
      bfsOrder_complete g root_idx hWF hroot i hri
    obtain ⟨m, ps, hreg, hpkg, heq⟩ :=
      processNode_shape g root_idx registry lockfile i hir hskip (hall i himem)
    refine ⟨build_rule (g.node! i).name
      ("build/deps/lib" ++ normalize_crate_name (g.node! i).name ++
        ".rlib build/deps/lib" ++
        normalize_crate_name (g.node! i).name ++ ".rmeta")
      [REGISTRY_PATH ++ "/" ++ (g.node! i).name ++ "-" ++
        (g.node! i).version ++ "/" ++
        (m.lib.bind LibSection.path).getD "src/lib.rs"]
      [] "build/deps" "lib" (edition ps.edition) "dep-info,metadata,link"
      (depNamesOf g (g.node! i)), ?_, rfl, (lib_target_split _).symm⟩
    have hcf : (create g root_idx registry lockfile).1 =
        ((bfsOrder g root_idx).map
          (entriesAt g root_idx registry lockfile)).flatten :=
      emitNodes_flatten g root_idx registry lockfile _ hall
    rw [hcf]
    refine List.mem_flatten.mpr
      ⟨entriesAt g root_idx registry lockfile i,
        List.mem_map.mpr ⟨i, himem, rfl⟩, ?_⟩
    rw [entriesAt, heq]
    simp

/-- Witness for C4 at `gDiamond`, `u = 0` (the root), `i = 2` (`a`). -/
theorem C4_normalization_consistent_witness :
    (gDiamond.WF ∧ 0 < gDiamond.nodes.length ∧
     (create gDiamond 0 regDiamond "Cargo.lock").2 = none ∧
     Reaches gDiamond 0 0 ∧ (2 : Nat) ∈ (gDiamond.node! 0).dependencies ∧
     skip_dep (gDiamond.node! 2).name = false ∧ (2 : Nat) ≠ 0) ∧
    ((∀ s, (normalize_crate_name s).data = s.data.map normChar) ∧
     (∀ r, Entry.rule r ∈ entriesAt gDiamond 0 regDiamond "Cargo.lock" 0 →
       (normalize_crate_name (gDiamond.node! 2).name,
         depArtifact (gDiamond.node! 2).name) ∈ r.externArgs) ∧
     (∃ r, Entry.rule r ∈ (create gDiamond 0 regDiamond "Cargo.lock").1 ∧
       r.pkg_name = (gDiamond.node! 2).name ∧
       r.target =
         ("build/deps/lib" ++ normalize_crate_name (gDiamond.node! 2).name ++
           ".rlib") ++ " " ++
         ("build/deps/lib" ++ normalize_crate_name (gDiamond.node! 2).name ++
           ".rmeta"))) :=
  ⟨⟨by decide, by decide, by decide, reaches_gDiamond_0, by decide,
    by decide, by decide⟩,
   C4_normalization_consistent gDiamond 0 regDiamond "Cargo.lock" 0 2
     (by decide) (by decide) (by decide) reaches_gDiamond_0 (by decide)
     (by decide) (by decide)⟩

/-- C5 counterexample: in `gPair` (root plus one dependency) the plan file
contains the `default` declaration, but its final line is the blank
separator of `a`'s rule block, not the `default` line — the declaration is
emitted right after the root's block, in the middle of the file. -/
theorem C5_counterexample :
    "default build/root" ∈ (createLines gPair 0 regDiamond "Cargo.lock").1 ∧
    (createLines gPair 0 regDiamond "Cargo.lock").1.getLast? ≠
      some "default build/root" := by
  decide

/-- C5 (amended): the `default` declaration is written immediately after the
root package's rule block — the first block of the plan — and the rule
blocks of all dependencies follow it, so it is the file's final line only
when no dependency block is emitted after it. -/
theorem C5_default_follows_root (g : Graph) (root_idx : Nat)
    (registry : Registry) (lockfile : String)
    (hroot : root_idx < g.nodes.length) :
    ∃ rest,
      (create g root_idx registry lockfile).1 =
        Entry.rule (rootRule g root_idx lockfile) ::
        Entry.defaultTarget
          ("build/" ++ normalize_crate_name (g.node! root_idx).name) ::
        rest ∧
      (createLines g root_idx registry lockfile).1 =
        preambleLines ++ renderRule (rootRule g root_idx lockfile) ++
          ("default " ++
            ("build/" ++ normalize_crate_name (g.node! root_idx).name)) ::
          (rest.map renderEntry).flatten := by
  obtain ⟨t, ht, hrt, hc⟩ := create_cons g root_idx registry lockfile hroot
  refine ⟨(emitNodes g root_idx registry lockfile t).1, ?_, ?_⟩
  · rw [hc]
  · simp only [createLines]
    rw [hc]
    simp [renderEntry, List.append_assoc]

/-- Witness for C5 (amended) at `gDiamond`. -/
theorem C5_default_follows_root_witness :
    0 < gDiamond.nodes.length ∧
    (∃ rest,
      (create gDiamond 0 regDiamond "Cargo.lock").1 =
        Entry.rule (rootRule gDiamond 0 "Cargo.lock") ::
        Entry.defaultTarget
          ("build/" ++ normalize_crate_name (gDiamond.node! 0).name) ::
        rest ∧
      (createLines gDiamond 0 regDiamond "Cargo.lock").1 =
        preambleLines ++ renderRule (rootRule gDiamond 0 "Cargo.lock") ++
          ("default " ++
            ("build/" ++ normalize_crate_name (gDiamond.node! 0).name)) ::
          (rest.map renderEntry).flatten) :=
  ⟨by decide, C5_default_follows_root gDiamond 0 regDiamond "Cargo.lock"
    (by decide)⟩

/-- C6 counterexample: in `gPair` with an empty package cache, generation
does abort with a fatal error, but the `default` declaration HAS already
been written to the (truncated) plan file — refuting "no default-target line
is ever written". -/
theorem C6_counterexample :
    (createLines gPair 0 regEmpty "Cargo.lock").2 ≠ none ∧
    "default build/root" ∈ (createLines gPair 0 regEmpty "Cargo.lock").1 := by
  decide

/-- C6 (amended): when a reachable dependency's manifest is missing or
unparsable, plan generation aborts with a fatal error (the run's error is
set; no retry or recovery exists in the model) — but the plan file is left
truncated with the `default` declaration already present, because it is
written together with the root's rule before any dependency manifest is
read. -/
theorem C6_abort_truncated (g : Graph) (root_idx : Nat) (registry : Registry)
    (lockfile : String) (v : Nat) (hWF : g.WF)
    (hroot : root_idx < g.nodes.length) (hv : Reaches g root_idx v)
    (hvr : v ≠ root_idx) (hskip : skip_dep (g.node! v).name = false)
    (hreg : registry ((g.node! v).name ++ "-" ++ (g.node! v).version) = none) :
    (createLines g root_idx registry lockfile).2 ≠ none ∧
    ("default " ++
      ("build/" ++ normalize_crate_name (g.node! root_idx).name)) ∈
      (createLines g root_idx registry lockfile).1 := by
  constructor
  · intro hnone
    have hnoerr : (create g root_idx registry lockfile).2 = none := hnone
    have hall := (emitNodes_none_iff g root_idx registry lockfile _).mp hnoerr
    have hvm : v ∈ bfsOrder g root_idx :=
      bfsOrder_complete g root_idx hWF hroot v hv
    obtain ⟨es, hes⟩ := hall v hvm
    rw [processNode, if_neg hvr] at hes
    simp only [hskip, Bool.false_eq_true, if_false, hreg] at hes
    cases hes
  · obtain ⟨t, ht, hrt, hc⟩ := create_cons g root_idx registry lockfile hroot
    simp only [createLines]
    rw [hc]
    simp [renderEntry]

/-- Witness for C6 (amended) at `gPair` with the empty cache, `v = 1`. -/
theorem C6_abort_truncated_witness :
    (gPair.WF ∧ 0 < gPair.nodes.length ∧ Reaches gPair 0 1 ∧
     (1 : Nat) ≠ 0 ∧ skip_dep (gPair.node! 1).name = false ∧
     regEmpty ((gPair.node! 1).name ++ "-" ++ (gPair.node! 1).version) =
       none) ∧
    ((createLines gPair 0 regEmpty "Cargo.lock").2 ≠ none ∧
     ("default " ++
       ("build/" ++ normalize_crate_name (gPair.node! 0).name)) ∈
       (createLines gPair 0 regEmpty "Cargo.lock").1) :=
  ⟨⟨by decide, by decide, reaches_gPair_1, by decide, by decide, rfl⟩,
   C6_abort_truncated gPair 0 regEmpty "Cargo.lock" 1 (by decide) (by decide)
     reaches_gPair_1 (by decide) (by decide) rfl⟩

/-- C7: a visited library dependency's single explicit input is the entry
path resolved from its own cached manifest — the declared `lib.path`
override when present, the conventional `src/lib.rs` otherwise — joined to
its cache directory `REGISTRY_PATH/{name}-{version}`; the root's rule uses
the single fixed entry `src/main.rs`. -/
theorem C7_entry_resolution (g : Graph) (root_idx : Nat) (registry : Registry)
    (lockfile : String) (v : Nat) (m : Manifest) (ps : PackageSection)
    (hvr : v ≠ root_idx) (hskip : skip_dep (g.node! v).name = false)
    (hreg : registry ((g.node! v).name ++ "-" ++ (g.node! v).version) = some m)
    (hpkg : m.package = some ps) :
    (∃ r, entriesAt g root_idx registry lockfile v = [Entry.rule r] ∧
      r.deps = [REGISTRY_PATH ++ "/" ++ (g.node! v).name ++ "-" ++
        (g.node! v).version ++ "/" ++
        (m.lib.bind LibSection.path).getD "src/lib.rs"]) ∧
    (∀ p, m.lib.bind LibSection.path = some p →
      (m.lib.bind LibSection.path).getD "src/lib.rs" = p) ∧
    (m.lib.bind LibSection.path = none →
      (m.lib.bind LibSection.path).getD "src/lib.rs" = "src/lib.rs") ∧
    (∀ r0, Entry.rule r0 ∈ entriesAt g root_idx registry lockfile root_idx →
      r0.deps = ["src/main.rs"]) := by
  have hpn := processNode_of_manifest g root_idx registry lockfile v m ps hvr
    hskip hreg hpkg
  refine ⟨⟨libRule g v m ps, ?_, rfl⟩, ?_, ?_, ?_⟩
  · rw [entriesAt, hpn]
  · intro p hp
    rw [hp]
    rfl
  · intro hp
    rw [hp]
    rfl
  · intro r0 hr0
    rw [entriesAt, processNode_root] at hr0
    rcases List.mem_cons.mp hr0 with h | h
    · injection h with h
      subst h
      rfl
    · simp at h

/-- Witness for C7 at `gDiamond`, `v = 3` (`b`, which declares a `lib.path`
override). -/
theorem C7_entry_resolution_witness :
    ((3 : Nat) ≠ 0 ∧ skip_dep (gDiamond.node! 3).name = false ∧
     regDiamond ((gDiamond.node! 3).name ++ "-" ++
       (gDiamond.node! 3).version) =
       some ⟨some ⟨.E2015⟩, some ⟨some "src/b_lib.rs"⟩⟩ ∧
     (Manifest.mk (some ⟨.E2015⟩) (some ⟨some "src/b_lib.rs"⟩)).package =
       some ⟨.E2015⟩) ∧
    ((∃ r, entriesAt gDiamond 0 regDiamond "Cargo.lock" 3 = [Entry.rule r] ∧
       r.deps = [REGISTRY_PATH ++ "/" ++ (gDiamond.node! 3).name ++ "-" ++
         (gDiamond.node! 3).version ++ "/" ++
         ((Manifest.mk (some ⟨.E2015⟩)
           (some ⟨some "src/b_lib.rs"⟩)).lib.bind LibSection.path).getD
           "src/lib.rs"]) ∧
     (∀ p, (Manifest.mk (some ⟨.E2015⟩)
         (some ⟨some "src/b_lib.rs"⟩)).lib.bind LibSection.path = some p →
       ((Manifest.mk (some ⟨.E2015⟩)
         (some ⟨some "src/b_lib.rs"⟩)).lib.bind LibSection.path).getD
         "src/lib.rs" = p) ∧
     ((Manifest.mk (some ⟨.E2015⟩)
         (some ⟨some "src/b_lib.rs"⟩)).lib.bind LibSection.path = none →
       ((Manifest.mk (some ⟨.E2015⟩)
         (some ⟨some "src/b_lib.rs"⟩)).lib.bind LibSection.path).getD
         "src/lib.rs" = "src/lib.rs") ∧
     (∀ r0, Entry.rule r0 ∈ entriesAt gDiamond 0 regDiamond "Cargo.lock" 0 →
       r0.deps = ["src/main.rs"])) :=
  ⟨⟨by decide, by decide, by decide, rfl⟩,
   C7_entry_resolution gDiamond 0 regDiamond "Cargo.lock" 3
     ⟨some ⟨.E2015⟩, some ⟨some "src/b_lib.rs"⟩⟩ ⟨.E2015⟩
     (by decide) (by decide) (by decide) rfl⟩

/-- C8: the root's rule is a `bin` rule with the single executable target
`build/{norm}` and emit set `dep-info,link`; every visited library
dependency's rule is a `lib` rule with the two targets
`build/deps/lib{norm}.rlib` and `build/deps/lib{norm}.rmeta` (same
normalized stem) and emit set `dep-info,metadata,link`. -/
theorem C8_crate_kinds (g : Graph) (root_idx : Nat) (registry : Registry)
    (lockfile : String) (v : Nat) (m : Manifest) (ps : PackageSection)
    (hroot : root_idx < g.nodes.length) (hvr : v ≠ root_idx)
    (hskip : skip_dep (g.node! v).name = false)
    (hreg : registry ((g.node! v).name ++ "-" ++ (g.node! v).version) = some m)
    (hpkg : m.package = some ps) :
    ((rootRule g root_idx lockfile).crate_type = "bin" ∧
     (rootRule g root_idx lockfile).target =
       "build/" ++ normalize_crate_name (g.node! root_idx).name ∧
     (rootRule g root_idx lockfile).emit = "dep-info,link" ∧
     Entry.rule (rootRule g root_idx lockfile) ∈
       (create g root_idx registry lockfile).1) ∧
    (∃ r, entriesAt g root_idx registry lockfile v = [Entry.rule r] ∧
      r.crate_type = "lib" ∧ r.emit = "dep-info,metadata,link" ∧
      r.target =
        ("build/deps/lib" ++ normalize_crate_name (g.node! v).name ++ ".rlib")
        ++ " " ++
        ("build/deps/lib" ++ normalize_crate_name (g.node! v).name ++
          ".rmeta")) := by
  have hpn := processNode_of_manifest g root_idx registry lockfile v m ps hvr
    hskip hreg hpkg
  refine ⟨⟨rfl, rfl, rfl,
    rootRule_mem g root_idx registry lockfile hroot⟩,
    ⟨libRule g v m ps, ?_, rfl, rfl, (lib_target_split _).symm⟩⟩
  rw [entriesAt, hpn]

/-- Witness for C8 at `gDiamond`, `v = 2` (`a`). -/
theorem C8_crate_kinds_witness :
    (0 < gDiamond.nodes.length ∧ (2 : Nat) ≠ 0 ∧
     skip_dep (gDiamond.node! 2).name = false ∧
     regDiamond ((gDiamond.node! 2).name ++ "-" ++
       (gDiamond.node! 2).version) = some ⟨some ⟨.E2018⟩, none⟩ ∧
     (Manifest.mk (some ⟨.E2018⟩) none).package = some ⟨.E2018⟩) ∧
    (((rootRule gDiamond 0 "Cargo.lock").crate_type = "bin" ∧
      (rootRule gDiamond 0 "Cargo.lock").target =
        "build/" ++ normalize_crate_name (gDiamond.node! 0).name ∧
      (rootRule gDiamond 0 "Cargo.lock").emit = "dep-info,link" ∧
      Entry.rule (rootRule gDiamond 0 "Cargo.lock") ∈
        (create gDiamond 0 regDiamond "Cargo.lock").1) ∧
     (∃ r, entriesAt gDiamond 0 regDiamond "Cargo.lock" 2 = [Entry.rule r] ∧
       r.crate_type = "lib" ∧ r.emit = "dep-info,metadata,link" ∧
       r.target =
         ("build/deps/lib" ++ normalize_crate_name (gDiamond.node! 2).name ++
           ".rlib") ++ " " ++
         ("build/deps/lib" ++ normalize_crate_name (gDiamond.node! 2).name ++
           ".rmeta"))) :=
  ⟨⟨by decide, by decide, by decide, by decide, rfl⟩,
   C8_crate_kinds gDiamond 0 regDiamond "Cargo.lock" 2
     ⟨some ⟨.E2018⟩, none⟩ ⟨.E2018⟩ (by decide) (by decide) (by decide)
     (by decide) rfl⟩

/-- C9: the override table has exactly one entry — a rule whose normalized
crate name is `libc` gets the fixed non-empty `--cfg` flag string spliced
into its `args` line, and any other normalized name gets nothing there. -/
theorem C9_libc_override (r : Rule) :
    (renderRule r)[2]? =
      some (baseArgsStr r ++
        (if normalize_crate_name r.pkg_name = "libc" then LIBC_CFGS else "")
        ++ externArgsStr r) ∧
    LIBC_CFGS ≠ "" := by
  constructor
  · by_cases h : normalize_crate_name r.pkg_name = "libc"
    · simp [renderRule, h]
    · simp [renderRule, h]
  · decide

/-- Witness for C9 at the root rule of `gDiamond` (normalized name `root`,
not `libc`). -/
theorem C9_libc_override_witness :
    (renderRule (rootRule gDiamond 0 "Cargo.lock"))[2]? =
      some (baseArgsStr (rootRule gDiamond 0 "Cargo.lock") ++
        (if normalize_crate_name (rootRule gDiamond 0 "Cargo.lock").pkg_name =
            "libc" then LIBC_CFGS else "")
        ++ externArgsStr (rootRule gDiamond 0 "Cargo.lock")) ∧
    LIBC_CFGS ≠ "" :=
  C9_libc_override (rootRule gDiamond 0 "Cargo.lock")

/-- C10: the root's emitted edition flag is the constant `2018` whatever any
manifest declares; a visited library dependency's edition flag is computed
by `edition` from its manifest's declared edition, which maps 2018 to
`"2018"` and every other declared edition — 2015 as well as editions newer
than 2018 — to `"2015"`. -/
theorem C10_edition_flags (g : Graph) (root_idx : Nat) (registry : Registry)
    (lockfile : String) (v : Nat) (m : Manifest) (ps : PackageSection)
    (hroot : root_idx < g.nodes.length) (hvr : v ≠ root_idx)
    (hskip : skip_dep (g.node! v).name = false)
    (hreg : registry ((g.node! v).name ++ "-" ++ (g.node! v).version) = some m)
    (hpkg : m.package = some ps) :
    ((rootRule g root_idx lockfile).edition = "2018" ∧
     Entry.rule (rootRule g root_idx lockfile) ∈
       (create g root_idx registry lockfile).1) ∧
    (∃ r, entriesAt g root_idx registry lockfile v = [Entry.rule r] ∧
      r.edition = edition ps.edition) ∧
    edition Edition.E2018 = "2018" ∧
    edition Edition.E2015 = "2015" ∧
    edition Edition.E2021 = "2015" := by
  have hpn := processNode_of_manifest g root_idx registry lockfile v m ps hvr
    hskip hreg hpkg
  refine ⟨⟨rfl, rootRule_mem g root_idx registry lockfile hroot⟩,
    ⟨libRule g v m ps, ?_, rfl⟩, rfl, rfl, rfl⟩
  rw [entriesAt, hpn]

/-- Witness for C10 at `gDiamond`, `v = 3` (`b`, edition 2015). -/
theorem C10_edition_flags_witness :
    (0 < gDiamond.nodes.length ∧ (3 : Nat) ≠ 0 ∧
     skip_dep (gDiamond.node! 3).name = false ∧
     regDiamond ((gDiamond.node! 3).name ++ "-" ++
       (gDiamond.node! 3).version) =
       some ⟨some ⟨.E2015⟩, some ⟨some "src/b_lib.rs"⟩⟩ ∧
     (Manifest.mk (some ⟨.E2015⟩)
       (some ⟨some "src/b_lib.rs"⟩)).package = some ⟨.E2015⟩) ∧
    (((rootRule gDiamond 0 "Cargo.lock").edition = "2018" ∧
      Entry.rule (rootRule gDiamond 0 "Cargo.lock") ∈
        (create gDiamond 0 regDiamond "Cargo.lock").1) ∧
     (∃ r, entriesAt gDiamond 0 regDiamond "Cargo.lock" 3 = [Entry.rule r] ∧
       r.edition = edition Edition.E2015) ∧
     edition Edition.E2018 = "2018" ∧
     edition Edition.E2015 = "2015" ∧
     edition Edition.E2021 = "2015") :=
  ⟨⟨by decide, by decide, by decide, by decide, rfl⟩,
   C10_edition_flags gDiamond 0 regDiamond "Cargo.lock" 3
     ⟨some ⟨.E2015⟩, some ⟨some "src/b_lib.rs"⟩⟩ ⟨.E2015⟩ (by decide)
     (by decide) (by decide) (by decide) rfl⟩

end Bygge
